import Mathlib

/-!
Shallow embedding of the numeric core of `Seconductor_bandgap_formation.py`
(the function `get_kp_data`), which computes the Kronig-Penney criterion,
the allowed/forbidden classification, the energy dispersion, the
extended-zone wavevector mapping, the mirrored full spectrum and the
occupied-state mask.

Floating-point values are modelled as real numbers; the NaN sentinel used
for forbidden grid points is modelled as `none : Option ℝ` (negation maps
`none` to `none`, matching `-NaN = NaN`, and `np.isnan` becomes
`Option.isSome` negated).
-/

namespace KP

/-- Lattice constant `a = 1.0` (module-level constant in the source). -/
def a : ℝ := 1

/-- Normalized Planck constant `hbar = 1.0`. -/
def hbar : ℝ := 1

/-- Electron mass `me = 1.0`. -/
def me : ℝ := 1

/-- Number of sample grid points: `np.linspace(0.001, 3.0*np.pi, 2500)`. -/
def numPoints : ℕ := 2500

/-- The sample grid `Ka = np.linspace(0.001, 3.0*np.pi, 2500)`:
`Ka[i] = 0.001 + i * (3π - 0.001) / 2499`. -/
noncomputable def Ka (i : ℕ) : ℝ :=
  0.001 + (i : ℝ) * (3 * Real.pi - 0.001) / 2499

/-- The criterion values `f_vals = np.cos(Ka) + mu * np.sin(Ka) / Ka`. -/
noncomputable def f_vals (mu : ℝ) (i : ℕ) : ℝ :=
  Real.cos (Ka i) + mu * Real.sin (Ka i) / Ka i

/-- Allowed-zone flag `mask_allowed = np.abs(f_vals) <= 1`. -/
def mask_allowed (mu : ℝ) (i : ℕ) : Prop :=
  |f_vals mu i| ≤ 1

noncomputable instance (mu : ℝ) (i : ℕ) : Decidable (mask_allowed mu i) :=
  inferInstanceAs (Decidable (|f_vals mu i| ≤ 1))

/-- Energy `E = (hbar**2 * Ka**2) / (2 * me * a**2)`. -/
noncomputable def E (i : ℕ) : ℝ :=
  (hbar ^ 2 * Ka i ^ 2) / (2 * me * a ^ 2)

/-- Brillouin-zone index `zone_n = int(np.ceil(val_ka / np.pi))`. -/
noncomputable def zone_n (i : ℕ) : ℤ :=
  ⌈Ka i / Real.pi⌉

/-- The per-point branch of the extended-zone loop, before the division
by the lattice constant: `some k_val` in the allowed branch,
`none` (NaN) in the forbidden branch. -/
noncomputable def k_val (mu : ℝ) (i : ℕ) : Option ℝ :=
  if |f_vals mu i| ≤ 1 then
    some (if zone_n i % 2 = 1 then
            ((zone_n i : ℝ) - 1) * Real.pi + Real.arccos (f_vals mu i)
          else
            (zone_n i : ℝ) * Real.pi - Real.arccos (f_vals mu i))
  else
    none

/-- `k_extended.append(k_val / a)`: every appended element is divided by
the lattice constant (NaN stays NaN, i.e. `none` stays `none`). -/
noncomputable def k_ext (mu : ℝ) (i : ℕ) : Option ℝ :=
  (k_val mu i).map (fun x => x / a)

/-- Full-spectrum wavevector `k_full = np.concatenate([-k_ext[::-1], k_ext])`,
indexed by `j < 2 * numPoints`. -/
noncomputable def k_full (mu : ℝ) (j : ℕ) : Option ℝ :=
  if j < numPoints then (k_ext mu (numPoints - 1 - j)).map (fun x => -x)
  else k_ext mu (j - numPoints)

/-- Full-spectrum energy `E_full = np.concatenate([E[::-1], E])`. -/
noncomputable def E_full (j : ℕ) : ℝ :=
  if j < numPoints then E (numPoints - 1 - j) else E (j - numPoints)

/-- Full-spectrum allowed mask
`mask_full = np.concatenate([mask_allowed[::-1], mask_allowed])`. -/
def mask_full (mu : ℝ) (j : ℕ) : Prop :=
  if j < numPoints then mask_allowed mu (numPoints - 1 - j)
  else mask_allowed mu (j - numPoints)

/-- Validity flag `valid = ~np.isnan(k_full)`. -/
noncomputable def valid (mu : ℝ) (j : ℕ) : Prop :=
  (k_full mu j).isSome

/-- Occupation mask `filled_mask = (E_full <= ef) & mask_full & valid`. -/
noncomputable def filled_mask (mu ef : ℝ) (j : ℕ) : Prop :=
  E_full j ≤ ef ∧ mask_full mu j ∧ valid mu j

/-- Number of allowed grid points at barrier strength `mu`. -/
noncomputable def allowedCount (mu : ℝ) : ℕ :=
  ((Finset.range numPoints).filter (fun i => |f_vals mu i| ≤ 1)).card

/-- Clamp to `[-1, 1]`, as the spec prescribes before `arccos`
(spec-side definition; the source applies no clamp). -/
noncomputable def clamp (x : ℝ) : ℝ :=
  max (-1) (min 1 x)

/-- Spec-side extended-zone wavevector: `arccos` applied to the clamped
criterion value, zone mapping by parity, divided by the lattice constant,
NaN sentinel where not allowed. -/
noncomputable def k_spec (mu : ℝ) (i : ℕ) : Option ℝ :=
  if mask_allowed mu i then
    some ((if zone_n i % 2 = 1 then
             ((zone_n i : ℝ) - 1) * Real.pi + Real.arccos (clamp (f_vals mu i))
           else
             (zone_n i : ℝ) * Real.pi - Real.arccos (clamp (f_vals mu i))) / a)
  else
    none

/-- The first grid point is exactly `0.001`. -/
theorem Ka_zero : Ka 0 = 0.001 := by
  simp [Ka]

/-- Every grid point is strictly positive. -/
theorem Ka_pos (i : ℕ) : 0 < Ka i := by
  have hpi : (3 : ℝ) < Real.pi := Real.pi_gt_three
  have hstep : (0 : ℝ) ≤ (i : ℝ) * (3 * Real.pi - 0.001) / 2499 := by
    apply div_nonneg _ (by norm_num)
    apply mul_nonneg (Nat.cast_nonneg i)
    nlinarith
  have : (0 : ℝ) < 0.001 := by norm_num
  unfold Ka
  linarith

/-- C1 (original form): the claim `E[i] = Ka[i]^2` fails at grid index 0,
where `Ka 0 = 0.001` and `E 0 = 0.001^2 / 2 ≠ 0.001^2`. -/
theorem C1_counterexample : E 0 ≠ Ka 0 ^ 2 := by
  rw [Ka_zero]
  unfold E hbar me a
  rw [Ka_zero]
  norm_num

/-- C1 (amended): for every grid index `i`, the energy returned by the
code is `E[i] = Ka[i]^2 / 2` (the kinetic energy `ħ²K²/(2m)` in the
normalized unit system `ħ = m = a = 1`). -/
theorem C1_thm (i : ℕ) : E i = Ka i ^ 2 / 2 := by
  unfold E hbar me a
  ring

/-- C2: every point of the sample grid is strictly positive (zero is
excluded by construction), so the divisor `Ka[i]` of `sin(Ka)/Ka` is
never zero for any grid index. -/
theorem C2_thm (i : ℕ) (h : i < numPoints) : 0 < Ka i ∧ Ka i ≠ 0 :=
  ⟨Ka_pos i, (Ka_pos i).ne'⟩

theorem C2_witness : 0 < numPoints ∧ (0 < Ka 0 ∧ Ka 0 ≠ 0) :=
  ⟨by norm_num [numPoints], C2_thm 0 (by norm_num [numPoints])⟩

/-- C3: for every grid index `i` and every `mu ≥ 0`, the criterion value
is `f[i] = cos(Ka[i]) + mu * sin(Ka[i]) / Ka[i]`, and `allowed[i]` holds
iff `|f[i]| ≤ 1`. -/
theorem C3_thm (mu : ℝ) (i : ℕ) (hmu : 0 ≤ mu) :
    f_vals mu i = Real.cos (Ka i) + mu * Real.sin (Ka i) / Ka i ∧
      (mask_allowed mu i ↔ |f_vals mu i| ≤ 1) :=
  ⟨rfl, Iff.rfl⟩

theorem C3_witness :
    (0 : ℝ) ≤ 0 ∧
      (f_vals 0 0 = Real.cos (Ka 0) + 0 * Real.sin (Ka 0) / Ka 0 ∧
        (mask_allowed 0 0 ↔ |f_vals 0 0| ≤ 1)) :=
  ⟨le_refl 0, C3_thm 0 0 (le_refl 0)⟩

/-- C4: for every grid index and every barrier strength, the code's
extended-zone wavevector agrees with the spec's description: where
allowed, `((n-1)π + arccos(clamp f)` for odd zone index `n`, `nπ -
arccos(clamp f)` for even `n`) divided by the lattice constant; where
not allowed, the NaN sentinel. -/
theorem C4_thm (mu : ℝ) (i : ℕ) : k_ext mu i = k_spec mu i := by
  unfold k_ext k_val k_spec
  by_cases h : |f_vals mu i| ≤ 1
  · have hclamp : clamp (f_vals mu i) = f_vals mu i := by
      obtain ⟨h1, h2⟩ := abs_le.mp h
      unfold clamp
      rw [min_eq_right h2, max_eq_right h1]
    rw [if_pos h, if_pos (show mask_allowed mu i from h), hclamp]
    simp
  · rw [if_neg h, if_neg (show ¬ mask_allowed mu i from h)]
    simp

/-- C8: when `mu = 0`, every grid index is allowed, because the
criterion reduces to `cos(Ka)` and `|cos| ≤ 1` everywhere. -/
theorem C8_thm (i : ℕ) : mask_allowed 0 i := by
  unfold mask_allowed f_vals
  rw [zero_mul, zero_div, add_zero]
  exact Real.abs_cos_le_one (Ka i)

/-- C5: mirror symmetry of the full spectrum of length `L = 2 * numPoints`:
`k_full[j]` is the negation of `k_full[L-1-j]` (with the NaN sentinel
mapped to itself), `E_full[j] = E_full[L-1-j]`, and
`mask_full[j] = mask_full[L-1-j]`. -/
theorem C5_thm (mu : ℝ) (j : ℕ) (hj : j < 2 * numPoints) :
    k_full mu j = (k_full mu (2 * numPoints - 1 - j)).map (fun x => -x) ∧
      E_full j = E_full (2 * numPoints - 1 - j) ∧
      (mask_full mu j ↔ mask_full mu (2 * numPoints - 1 - j)) := by
  simp only [numPoints] at hj ⊢
  by_cases h : j < 2500
  · have h1 : ¬ (2 * 2500 - 1 - j < 2500) := by omega
    have e1 : 2 * 2500 - 1 - j - 2500 = 2500 - 1 - j := by omega
    simp only [k_full, E_full, mask_full, numPoints, if_pos h, if_neg h1, e1]
    simp
  · have h1 : 2 * 2500 - 1 - j < 2500 := by omega
    have e1 : 2500 - 1 - (2 * 2500 - 1 - j) = j - 2500 := by omega
    simp only [k_full, E_full, mask_full, numPoints, if_neg h, if_pos h1, e1]
    refine ⟨?_, by simp, by simp⟩
    cases k_ext mu (j - 2500) <;> simp

theorem C5_witness :
    0 < 2 * numPoints ∧
      (k_full 0 0 = (k_full 0 (2 * numPoints - 1 - 0)).map (fun x => -x) ∧
        E_full 0 = E_full (2 * numPoints - 1 - 0) ∧
        (mask_full 0 0 ↔ mask_full 0 (2 * numPoints - 1 - 0))) :=
  ⟨by norm_num [numPoints], C5_thm 0 0 (by norm_num [numPoints])⟩

/-- C6: the occupation mask holds at a full-spectrum index iff the energy
is at most the Fermi level, the point is allowed, and the extended
wavevector is not the NaN sentinel. -/
theorem C6_thm (mu ef : ℝ) (j : ℕ) :
    filled_mask mu ef j ↔
      E_full j ≤ ef ∧ mask_full mu j ∧ k_full mu j ≠ none := by
  unfold filled_mask valid
  rw [Option.isSome_iff_ne_none]

/-- C7: for fixed `mu`, raising the Fermi level never unfills a state:
the set of filled indices at `ef1` is contained in the set at `ef2`
whenever `ef1 ≤ ef2`. -/
theorem C7_thm (mu ef1 ef2 : ℝ) (h : ef1 ≤ ef2) :
    {j | filled_mask mu ef1 j} ⊆ {j | filled_mask mu ef2 j} := by
  intro j hj
  obtain ⟨hE, hm, hv⟩ := hj
  exact ⟨hE.trans h, hm, hv⟩

theorem C7_witness :
    (0 : ℝ) ≤ 1 ∧ {j | filled_mask 0 0 j} ⊆ {j | filled_mask 0 1 j} :=
  ⟨by norm_num, C7_thm 0 0 1 (by norm_num)⟩

theorem k_ext_isSome_of_mask (mu : ℝ) (i : ℕ) (h : mask_allowed mu i) :
    (k_ext mu i).isSome := by
  unfold mask_allowed at h
  simp [k_ext, k_val, if_pos h]

/-- C10: wherever the full-spectrum allowed mask holds, the full-spectrum
wavevector is not the NaN sentinel (`arccos` is only reached on values
in `[-1, 1]`), so the validity conjunct is redundant and the occupation
mask is equivalent to `E_full[j] ≤ ef AND mask_full[j]`. -/
theorem C10_thm (mu ef : ℝ) (j : ℕ) :
    (mask_full mu j → (k_full mu j).isSome) ∧
      (filled_mask mu ef j ↔ E_full j ≤ ef ∧ mask_full mu j) := by
  have hv : mask_full mu j → (k_full mu j).isSome := by
    intro hm
    unfold mask_full at hm
    unfold k_full
    by_cases h : j < numPoints
    · rw [if_pos h] at hm ⊢
      simpa [Option.isSome_map] using k_ext_isSome_of_mask mu _ hm
    · rw [if_neg h] at hm ⊢
      exact k_ext_isSome_of_mask mu _ hm
  refine ⟨hv, ?_, ?_⟩
  · rintro ⟨hE, hm, _⟩
    exact ⟨hE, hm⟩
  · rintro ⟨hE, hm⟩
    exact ⟨hE, hm, hv hm⟩

theorem crit_antitone (c s mu1 mu2 : ℝ) (hc1 : -1 ≤ c) (hc2 : c ≤ 1)
    (h0 : 0 ≤ mu1) (h12 : mu1 ≤ mu2) (h : |c + mu2 * s| ≤ 1) :
    |c + mu1 * s| ≤ 1 := by
  rw [abs_le] at h ⊢
  rcases le_or_lt 0 s with hs | hs
  · constructor
    · nlinarith [mul_nonneg h0 hs]
    · nlinarith [mul_le_mul_of_nonneg_right h12 hs]
  · constructor
    · nlinarith [mul_le_mul_of_nonpos_right h12 hs.le]
    · nlinarith [mul_nonpos_of_nonneg_of_nonpos h0 hs.le]

theorem mask_allowed_antitone (mu1 mu2 : ℝ) (i : ℕ) (h0 : 0 ≤ mu1)
    (h12 : mu1 ≤ mu2) (h : mask_allowed mu2 i) : mask_allowed mu1 i := by
  unfold mask_allowed f_vals at h ⊢
  rw [mul_div_assoc] at h ⊢
  exact crit_antitone (Real.cos (Ka i)) (Real.sin (Ka i) / Ka i) mu1 mu2
    (Real.neg_one_le_cos (Ka i)) (Real.cos_le_one (Ka i)) h0 h12 h

theorem allowedCount_le (mu : ℝ) : allowedCount mu ≤ numPoints := by
  unfold allowedCount
  calc ((Finset.range numPoints).filter (fun i => |f_vals mu i| ≤ 1)).card
      ≤ (Finset.range numPoints).card := Finset.card_filter_le _ _
    _ = numPoints := Finset.card_range numPoints

/-- C9 (original form) is false: the count of allowed grid points cannot
be strictly decreasing across every pair `mu1 < mu2` with `mu1 ≥ 0`,
since a natural number bounded by the grid size cannot strictly decrease
along the infinitely many steps `0 < 1 < 2 < ...`. -/
theorem C9_counterexample :
    ¬ (∀ mu1 mu2 : ℝ, 0 ≤ mu1 → mu1 < mu2 →
        allowedCount mu2 < allowedCount mu1) := by
  intro h
  have key : ∀ n : ℕ, allowedCount (n : ℝ) + n ≤ allowedCount (0 : ℝ) := by
    intro n
    induction n with
    | zero => simp
    | succ m ih =>
      have hlt : allowedCount ((m + 1 : ℕ) : ℝ) < allowedCount ((m : ℕ) : ℝ) :=
        h (m : ℝ) ((m + 1 : ℕ) : ℝ) (Nat.cast_nonneg m)
          (by push_cast; linarith)
      omega
  have h1 := key (numPoints + 1)
  have h2 := allowedCount_le (0 : ℝ)
  omega

/-- C9 (amended): for `0 ≤ mu1 ≤ mu2`, the count of allowed grid points
at `mu2` is at most the count at `mu1` — the number of allowed points is
non-increasing in the barrier strength (but not strictly decreasing for
every pair). -/
theorem C9_thm (mu1 mu2 : ℝ) (h0 : 0 ≤ mu1) (h12 : mu1 ≤ mu2) :
    allowedCount mu2 ≤ allowedCount mu1 := by
  unfold allowedCount
  apply Finset.card_le_card
  intro i hi
  rw [Finset.mem_filter] at hi ⊢
  exact ⟨hi.1, mask_allowed_antitone mu1 mu2 i h0 h12 hi.2⟩

theorem C9_witness :
    (0 : ℝ) ≤ 1 ∧ (1 : ℝ) ≤ 2 ∧ allowedCount 2 ≤ allowedCount 1 :=
  ⟨by norm_num, by norm_num, C9_thm 1 2 (by norm_num) (by norm_num)⟩

end KP
